import Mathlib

/-
  A shallow embedding, over the exact rationals, of the numerical-methods
  scripts of the repository: the bisection script (02_bisection_method.py),
  the Newton-Raphson scripts (04_newton_raphson_drag_cd.py,
  05_newton_raphson_van_der_waals.py, 10_boundary_value_problems.py),
  the Lagrange interpolator (01_lagrange_interpolation.py), the RK2 family
  stepper (08_ivp_rk2_methods.py) and the PDE marchers (12_heat_eq_ftcs.py,
  13_heat_eq_crank_nicolson.py, 14_wave_eq_explicit_fd.py).

  Machine floats are modelled by exact rationals.  The print statements that
  matter to the claims are modelled as explicit event values, and the call
  to exit() in script 02 is modelled as a distinguished terminal value, so
  that process termination is distinguishable from a returned outcome.
-/

namespace Bisection

/-- f(x) = x^3 - x - 2, the function of scripts 02 and 10. -/
def f02 (x : ℚ) : ℚ := x ^ 3 - x - 2

/-- The way one run of the loop of script 02 ends: either a root was printed
inside the loop, or the for-else clause printed non-convergence. -/
inductive Outcome
  | found (root : ℚ)
  | notConverged
  deriving DecidableEq

/-- The module-level state of script 02 when the loop is over: the outcome,
the two trace lists x_values and f_values, and the current bracket [a, b]. -/
structure LoopState where
  outcome : Outcome
  x_values : List ℚ
  f_values : List ℚ
  a : ℚ
  b : ℚ
  deriving DecidableEq

/-- The bisection loop of script 02, lines 47-65.  Each iteration computes
the midpoint x_n = (a + b) / 2, appends x_n to x_values and f(x_n) to
f_values, stops when abs(f(x_n)) < tol or (b - a) / 2 < tol, and otherwise
moves b to x_n when f(x_n) * f(a) < 0 and a to x_n in the other case.
Running out of fuel models the for-else clause of the Python loop. -/
def bisectLoop (f : ℚ → ℚ) (tol : ℚ) : ℕ → ℚ → ℚ → List ℚ → List ℚ → LoopState
  | 0, a, b, xs, fs => ⟨.notConverged, xs, fs, a, b⟩
  | fuel + 1, a, b, xs, fs =>
    if |f ((a + b) / 2)| < tol ∨ (b - a) / 2 < tol then
      ⟨.found ((a + b) / 2), xs ++ [(a + b) / 2], fs ++ [f ((a + b) / 2)], a, b⟩
    else if f ((a + b) / 2) * f a < 0 then
      bisectLoop f tol fuel a ((a + b) / 2) (xs ++ [(a + b) / 2]) (fs ++ [f ((a + b) / 2)])
    else
      bisectLoop f tol fuel ((a + b) / 2) b (xs ++ [(a + b) / 2]) (fs ++ [f ((a + b) / 2)])

/-- What running script 02 can do as a process: call exit() on the
same-sign precondition check of lines 38-40, or run the loop to an end. -/
inductive Run
  | exited
  | ran (s : LoopState)
  deriving DecidableEq

/-- Script 02 as a whole: the precondition check of lines 38-40 followed by
the loop.  The exit() call is the `exited` value. -/
def bisection (f : ℚ → ℚ) (a b tol : ℚ) (max_iter : ℕ) : Run :=
  if f a * f b ≥ 0 then .exited
  else .ran (bisectLoop f tol max_iter a b [] [])

/-- If v * w < 0, u * v is not negative and u is not zero, then u * w < 0:
the sign bookkeeping behind keeping a sign change inside the bracket when
the upper half [x_n, b] is selected. -/
lemma mul_sign_transfer {u v w : ℚ} (hvw : v * w < 0) (huv : 0 ≤ u * v)
    (hu : u ≠ 0) : u * w < 0 := by
  have hv : v ≠ 0 := by
    intro h
    rw [h, zero_mul] at hvw
    exact lt_irrefl 0 hvw
  rcases hu.lt_or_lt with hu' | hu'
  · have hvle : v ≤ 0 := by
      by_contra hvpos
      push_neg at hvpos
      have := mul_neg_of_neg_of_pos hu' hvpos
      linarith
    have hvlt : v < 0 := lt_of_le_of_ne hvle hv
    have hw : 0 < w := by
      by_contra hwle
      push_neg at hwle
      have : 0 ≤ v * w := by nlinarith
      linarith
    exact mul_neg_of_neg_of_pos hu' hw
  · have hvge : 0 ≤ v := by
      by_contra hvneg
      push_neg at hvneg
      have := mul_neg_of_pos_of_neg hu' hvneg
      linarith
    have hvlt : 0 < v := lt_of_le_of_ne hvge (Ne.symm hv)
    have hw : w < 0 := by
      by_contra hwge
      push_neg at hwge
      have : 0 ≤ v * w := mul_nonneg hvge hwge
      linarith
    exact mul_neg_of_pos_of_neg hu' hw

end Bisection

namespace Newton

/-- How the Newton-Raphson loops of scripts 04, 05 and 10 end: a root
printed inside the loop, the degenerate-derivative break, the
domain-guard break (scripts 04 and 05 only), or the for-else clause. -/
inductive Outcome
  | found (root : ℚ)
  | derivSmall
  | leftDomain
  | notConverged
  deriving DecidableEq

/-- The common Newton-Raphson loop of scripts 04, 05 and 10.  Each
iteration checks abs(f_prime(x_n)) < 1e-10 and breaks with the
degenerate-derivative message, computes x_next = x_n - f(x_n)/f_prime(x_n),
checks the script's domain guard on x_next and breaks with the
left-valid-domain message (scripts 04 and 05; script 10 has no guard,
which is the always-true guard), appends x_next and f(x_next) to the trace
lists, and stops when abs(f(x_next)) < tol or abs(x_next - x_n) < tol. -/
def newtonLoop (f fp : ℚ → ℚ) (guard : ℚ → Bool) (tol : ℚ) :
    ℕ → ℚ → List ℚ → List ℚ → Outcome × List ℚ × List ℚ
  | 0, _, xs, fs => (.notConverged, xs, fs)
  | fuel + 1, x, xs, fs =>
    if |fp x| < 1 / 10 ^ 10 then (.derivSmall, xs, fs)
    else if guard (x - f x / fp x) = false then (.leftDomain, xs, fs)
    else if |f (x - f x / fp x)| < tol ∨ |(x - f x / fp x) - x| < tol then
      (.found (x - f x / fp x), xs ++ [x - f x / fp x], fs ++ [f (x - f x / fp x)])
    else
      newtonLoop f fp guard tol fuel (x - f x / fp x)
        (xs ++ [x - f x / fp x]) (fs ++ [f (x - f x / fp x)])

/-- The whole Newton-Raphson run: the trace lists start as [x0] and
[f(x0)] (step 4 of each script) and the loop is then iterated. -/
def newton (f fp : ℚ → ℚ) (guard : ℚ → Bool) (tol : ℚ) (max_iter : ℕ)
    (x0 : ℚ) : Outcome × List ℚ × List ℚ :=
  newtonLoop f fp guard tol max_iter x0 [x0] [f x0]

/-- Script 04's domain guard, lines 67-70: the run continues only when
Cd_next is strictly positive. -/
def dragGuard (cd : ℚ) : Bool := decide (0 < cd)

/-- Script 05's domain guard, lines 72-75: the run continues only when
V_next is strictly above the Van der Waals constant b. -/
def vdwGuard (b v : ℚ) : Bool := decide (b < v)

/-- Script 10 has no domain guard: every iterate passes. -/
def noGuard (_ : ℚ) : Bool := true

end Newton

namespace Lagrange

/-- lagrange_interpolation of script 01, lines 30-43: result starts at 0;
for each i the term starts at y_data[i] and is multiplied, for each j
different from i, by (x - x_data[j]) / (x_data[i] - x_data[j]); each term
is added to the result. -/
def lagrange_interpolation (x : ℚ) (x_data y_data : List ℚ) : ℚ :=
  (List.range x_data.length).foldl
    (fun result i =>
      result +
        (List.range x_data.length).foldl
          (fun term j =>
            if j ≠ i then
              term * ((x - x_data.getD j 0) / (x_data.getD i 0 - x_data.getD j 0))
            else term)
          (y_data.getD i 0))
    0

/-- A left fold that adds h of every element is the initial value plus the
sum of the mapped list. -/
lemma foldl_add_sum (h : ℕ → ℚ) : ∀ (l : List ℕ) (init : ℚ),
    l.foldl (fun r k => r + h k) init = init + (l.map h).sum := by
  intro l
  induction l with
  | nil => intro init; simp
  | cons k l ih =>
    intro init
    simp only [List.foldl_cons, List.map_cons, List.sum_cons, ih, add_assoc]

/-- A left fold that multiplies by g at every element other than i is the
initial value times the product of the mapped list, where position i
contributes the factor 1. -/
lemma foldl_mul_ite (g : ℕ → ℚ) (i : ℕ) : ∀ (l : List ℕ) (init : ℚ),
    l.foldl (fun t j => if j ≠ i then t * g j else t) init
      = init * (l.map fun j => if j ≠ i then g j else 1).prod := by
  intro l
  induction l with
  | nil => intro init; simp
  | cons j l ih =>
    intro init
    by_cases hj : j ≠ i
    · simp only [List.foldl_cons, List.map_cons, List.prod_cons, if_pos hj, ih]
      ring
    · simp only [List.foldl_cons, List.map_cons, List.prod_cons, if_neg hj, ih]
      ring

/-- Summing a map that is c at position i and 0 elsewhere over a
duplicate-free list containing i gives c. -/
lemma sum_map_single (c : ℚ) (i : ℕ) :
    ∀ (l : List ℕ), l.Nodup → i ∈ l →
      (l.map fun k => if k = i then c else 0).sum = c := by
  intro l
  induction l with
  | nil => intro _ h; exact absurd h (List.not_mem_nil i)
  | cons a l ih =>
    intro hnd hmem
    rcases List.mem_cons.mp hmem with rfl | hmem'
    · simp only [List.map_cons, List.sum_cons]
      have hnotmem : i ∉ l := (List.nodup_cons.mp hnd).1
      have hz : (l.map fun k => if k = i then c else 0).sum = 0 := by
        apply List.sum_eq_zero
        intro z hz
        obtain ⟨k, hk, rfl⟩ := List.mem_map.mp hz
        rw [if_neg]
        intro hka
        exact hnotmem (hka ▸ hk)
      rw [if_pos trivial, hz, add_zero]
    · have hne : a ≠ i := by
        intro h
        exact (List.nodup_cons.mp hnd).1 (h ▸ hmem')
      simp only [List.map_cons, List.sum_cons, if_neg hne, zero_add]
      exact ih (List.nodup_cons.mp hnd).2 hmem'

/-- Distinct indices of a duplicate-free list hold distinct values. -/
lemma getD_ne_of_index_ne (l : List ℚ) (hnd : l.Nodup) {j k : ℕ}
    (hj : j < l.length) (hk : k < l.length) (hne : k ≠ j) :
    l.getD k 0 ≠ l.getD j 0 := by
  rw [List.getD_eq_getElem l 0 hk, List.getD_eq_getElem l 0 hj]
  intro h
  exact hne (hnd.getElem_inj_iff.mp h)

/-- The inner fold of lagrange_interpolation, evaluated at the node
x_data[i]: the term for k = i is y_data[i] (all factors are 1) and the
term for k different from i is 0 (the factor at j = i vanishes). -/
lemma inner_term_eq (x_data y_data : List ℚ) (i k : ℕ) (hnd : x_data.Nodup)
    (hi : i < x_data.length) (hk : k < x_data.length) :
    (List.range x_data.length).foldl
        (fun term j =>
          if j ≠ k then
            term * ((x_data.getD i 0 - x_data.getD j 0) /
              (x_data.getD k 0 - x_data.getD j 0))
          else term)
        (y_data.getD k 0)
      = if k = i then y_data.getD i 0 else 0 := by
  rw [foldl_mul_ite]
  by_cases hki : k = i
  · subst hki
    rw [if_pos rfl]
    have hone : ((List.range x_data.length).map fun j =>
        if j ≠ k then
          (x_data.getD k 0 - x_data.getD j 0) / (x_data.getD k 0 - x_data.getD j 0)
        else 1).prod = 1 := by
      apply List.prod_eq_one
      intro z hz
      obtain ⟨j, hj, rfl⟩ := List.mem_map.mp hz
      by_cases hjk : j ≠ k
      · rw [if_pos hjk]
        exact div_self (sub_ne_zero.mpr
          (getD_ne_of_index_ne x_data hnd (List.mem_range.mp hj) hk
            (fun h => hjk h.symm)))
      · rw [if_neg hjk]
    rw [hone, mul_one]
  · rw [if_neg hki]
    have h0 : (0 : ℚ) ∈ (List.range x_data.length).map fun j =>
        if j ≠ k then
          (x_data.getD i 0 - x_data.getD j 0) / (x_data.getD k 0 - x_data.getD j 0)
        else 1 := by
      apply List.mem_map.mpr
      refine ⟨i, List.mem_range.mpr hi, ?_⟩
      rw [if_pos (fun h => hki h.symm), sub_self, zero_div]
    rw [List.prod_eq_zero h0, mul_zero]

end Lagrange

namespace RK2

/-- The ODE right-hand side of script 08: f(t, u) = -2u + t. -/
def f08 (t u : ℚ) : ℚ := -2 * u + t

/-- The Butcher coefficients c2, a21, b1, b2 of one RK2 variant. -/
structure Coeffs where
  c2 : ℚ
  a21 : ℚ
  b1 : ℚ
  b2 : ℚ
  deriving DecidableEq

/-- The coefficient dictionary of rk2_step (script 08, lines 46-51).
Looking up an unknown key raises a KeyError in Python; that is the none
value here. -/
def methods (method : String) : Option Coeffs :=
  if method = "heun" then some ⟨1, 1, 1 / 2, 1 / 2⟩
  else if method = "midpoint" then some ⟨1 / 2, 1 / 2, 0, 1⟩
  else if method = "ralston" then some ⟨2 / 3, 2 / 3, 1 / 4, 3 / 4⟩
  else if method = "classical" then some ⟨1, 1, 0, 1⟩
  else none

/-- rk2_step of script 08, lines 44-60: k1 = f(t_n, u_n), then
k2 = f(t_n + c2 dt, u_n + a21 k1 dt), then
u_next = u_n + dt (b1 k1 + b2 k2), with the coefficients looked up in
the dictionary by the method name. -/
def rk2_step (t_n u_n dt : ℚ) (method : String) : Option ℚ :=
  match methods method with
  | none => none
  | some coeffs =>
      some (u_n + dt * (coeffs.b1 * f08 t_n u_n +
        coeffs.b2 * f08 (t_n + coeffs.c2 * dt)
          (u_n + coeffs.a21 * f08 t_n u_n * dt)))

end RK2

namespace PDE

/-- One FTCS update of script 12, lines 66-70: the loop writes only the
interior columns 1 .. Nx-2 of the next row; all other columns keep the 0
they were given before the loop. -/
def ftcsStep (r : ℚ) (Nx : ℕ) (row : ℕ → ℚ) (i : ℕ) : ℚ :=
  if 1 ≤ i ∧ i < Nx - 1 then
    row i + r * (row (i + 1) - 2 * row i + row (i - 1))
  else 0

/-- The temperature field of script 12: row 0 is the initial profile g of
step 5 with the boundary columns overwritten to 0 (step 6), and every
later row is one FTCS update of the row before it. -/
def heatU (r : ℚ) (Nx : ℕ) (g : ℕ → ℚ) : ℕ → ℕ → ℚ
  | 0, i => if i = 0 ∨ i = Nx - 1 then 0 else g i
  | n + 1, i => ftcsStep r Nx (heatU r Nx g n) i

/-- The action of the Crank-Nicolson matrix B of script 13 (steps 7-8):
tridiagonal with main diagonal 1 - r and off-diagonals r / 2, applied to
an interior vector of length m. -/
def Bdot (r : ℚ) (m : ℕ) (v : ℕ → ℚ) (k : ℕ) : ℚ :=
  (if 1 ≤ k then r / 2 * v (k - 1) else 0) + (1 - r) * v k +
    (if k + 1 < m then r / 2 * v (k + 1) else 0)

/-- One Crank-Nicolson step of script 13 (step 9): the interior of the
next row is spsolve(A, B u^n); scipy's sparse solver is external library
code, abstracted as the function sol from right-hand sides to solutions.
All other columns keep their 0. -/
def cnStep (r : ℚ) (Nx : ℕ) (sol : (ℕ → ℚ) → ℕ → ℚ) (row : ℕ → ℚ)
    (i : ℕ) : ℚ :=
  if 1 ≤ i ∧ i < Nx - 1 then
    sol (Bdot r (Nx - 2) fun j => row (j + 1)) (i - 1)
  else 0

/-- The temperature field of script 13: row 0 as in script 12, every later
row one Crank-Nicolson step of the row before it. -/
def cnU (r : ℚ) (Nx : ℕ) (g : ℕ → ℚ) (sol : (ℕ → ℚ) → ℕ → ℚ) :
    ℕ → ℕ → ℚ
  | 0, i => if i = 0 ∨ i = Nx - 1 then 0 else g i
  | n + 1, i => cnStep r Nx sol (cnU r Nx g sol n) i

/-- One explicit wave update of script 14, step 8: the three-level stencil
on the interior columns, 0 elsewhere. -/
def waveStep (r : ℚ) (Nx : ℕ) (rowN rowNm1 : ℕ → ℚ) (i : ℕ) : ℚ :=
  if 1 ≤ i ∧ i < Nx - 1 then
    2 * rowN i - rowNm1 i + r ^ 2 * (rowN (i + 1) - 2 * rowN i + rowN (i - 1))
  else 0

/-- The displacement field of script 14: row 0 is the initial profile g of
step 5 with zeroed boundary columns (step 7), row 1 is the
zero-initial-velocity bootstrap of step 6 computed from the step-5 profile,
and every later row is the three-level update of the two rows before it. -/
def waveU (r : ℚ) (Nx : ℕ) (g : ℕ → ℚ) : ℕ → ℕ → ℚ
  | 0, i => if i = 0 ∨ i = Nx - 1 then 0 else g i
  | 1, i =>
    if 1 ≤ i ∧ i < Nx - 1 then
      g i + 1 / 2 * r ^ 2 * (g (i + 1) - 2 * g i + g (i - 1))
    else 0
  | n + 2, i => waveStep r Nx (waveU r Nx g (n + 1)) (waveU r Nx g n) i

/-- The stability ratio of script 12, computed from its inputs:
dx = L / (Nx - 1), dt = T / Nt, r = alpha * dt / dx^2. -/
def ftcs_r (L T alpha : ℚ) (Nx Nt : ℕ) : ℚ :=
  alpha * (T / (Nt : ℚ)) / (L / ((Nx : ℚ) - 1)) ^ 2

/-- The Courant number of script 14, computed from its inputs:
r = c * dt / dx. -/
def wave_r (L T c : ℚ) (Nx Nt : ℕ) : ℚ :=
  c * (T / (Nt : ℚ)) / (L / ((Nx : ℚ) - 1))

/-- The stdout lines of the stability checks of scripts 12 and 14, with
the ratio they would format into the message. -/
inductive PrintEvent
  | heatWarn (r : ℚ)
  | waveWarn (r : ℚ)
  | waveCourant (r : ℚ)
  deriving DecidableEq

/-- What script 12 prints at its stability check, lines 41-44: a warning
when r > 0.5 and nothing otherwise; the run proceeds either way. -/
def ftcsLog (L T alpha : ℚ) (Nx Nt : ℕ) : List PrintEvent :=
  if ftcs_r L T alpha Nx Nt > 1 / 2 then
    [.heatWarn (ftcs_r L T alpha Nx Nt)]
  else []

/-- What script 14 prints at its stability check, lines 40-44: a warning
when r > 1 and the Courant number otherwise; the run proceeds either way. -/
def waveLog (L T c : ℚ) (Nx Nt : ℕ) : List PrintEvent :=
  if wave_r L T c Nx Nt > 1 then [.waveWarn (wave_r L T c Nx Nt)]
  else [.waveCourant (wave_r L T c Nx Nt)]

/-- The temperature array of script 12, marched with the computed ratio
whether or not the stability bound holds. -/
def ftcsField (L T alpha : ℚ) (Nx Nt : ℕ) (g : ℕ → ℚ) : ℕ → ℕ → ℚ :=
  heatU (ftcs_r L T alpha Nx Nt) Nx g

/-- The displacement array of script 14. -/
def waveField (L T c : ℚ) (Nx Nt : ℕ) (g : ℕ → ℚ) : ℕ → ℕ → ℚ :=
  waveU (wave_r L T c Nx Nt) Nx g

/-- The (Nt+1) x Nx table of temperatures that script 12 hands to its
plotting and tabulation consumers: its whole observable result apart from
stdout. -/
def ftcsTable (L T alpha : ℚ) (Nx Nt : ℕ) (g : ℕ → ℚ) : List (List ℚ) :=
  (List.range (Nt + 1)).map fun n =>
    (List.range Nx).map fun i => ftcsField L T alpha Nx Nt g n i

/-- The everywhere-zero initial profile, used to compare two runs. -/
def zeroInit : ℕ → ℚ := fun _ => 0

/-- A nonzero initial profile used in witnesses. -/
def sampleInit (i : ℕ) : ℚ := (i : ℚ) * (i : ℚ)

/-- An FTCS march started from the zero profile stays zero in every cell,
for any ratio r. -/
lemma heatU_zeroInit (r : ℚ) (Nx : ℕ) : ∀ n i, heatU r Nx zeroInit n i = 0 := by
  intro n
  induction n with
  | zero => intro i; simp [heatU, zeroInit]
  | succ n ih => intro i; simp [heatU, ftcsStep, ih]

end PDE

namespace RK2

/-- rk2_step is the coefficient lookup mapped through the stage formula. -/
lemma rk2_step_eq_map (t u dt : ℚ) (m : String) :
    rk2_step t u dt m = (methods m).map fun c =>
      u + dt * (c.b1 * f08 t u +
        c.b2 * f08 (t + c.c2 * dt) (u + c.a21 * f08 t u * dt)) := by
  cases h : methods m with
  | none => simp [rk2_step, h]
  | some c => simp [rk2_step, h]

/-- The coefficient dictionary has exactly the four scheme names. -/
lemma methods_isSome_iff (m : String) :
    (methods m).isSome ↔
      m = "heun" ∨ m = "midpoint" ∨ m = "ralston" ∨ m = "classical" := by
  rw [methods]
  split_ifs with h1 h2 h3 h4 <;> simp_all

end RK2

namespace PDE

/-- A stand-in linear solver used to instantiate witnesses. -/
def zeroSol : (ℕ → ℚ) → ℕ → ℚ := fun _ _ => 0

/-- The FTCS field is 0 on both boundary columns in every row. -/
lemma heatU_boundary (r : ℚ) (Nx : ℕ) (g : ℕ → ℚ) (n i : ℕ)
    (hi : i = 0 ∨ i = Nx - 1) : heatU r Nx g n i = 0 := by
  cases n with
  | zero => rw [heatU, if_pos hi]
  | succ n =>
    rw [heatU, ftcsStep]
    rcases hi with rfl | rfl
    · rw [if_neg (by omega)]
    · rw [if_neg (by omega)]

/-- The Crank-Nicolson field is 0 on both boundary columns in every row,
whatever the linear solver returns. -/
lemma cnU_boundary (r : ℚ) (Nx : ℕ) (g : ℕ → ℚ) (sol : (ℕ → ℚ) → ℕ → ℚ)
    (n i : ℕ) (hi : i = 0 ∨ i = Nx - 1) : cnU r Nx g sol n i = 0 := by
  cases n with
  | zero => rw [cnU, if_pos hi]
  | succ n =>
    rw [cnU, cnStep]
    rcases hi with rfl | rfl
    · rw [if_neg (by omega)]
    · rw [if_neg (by omega)]

/-- The wave field is 0 on both boundary columns in every row. -/
lemma waveU_boundary (r : ℚ) (Nx : ℕ) (g : ℕ → ℚ) (n i : ℕ)
    (hi : i = 0 ∨ i = Nx - 1) : waveU r Nx g n i = 0 := by
  match n with
  | 0 => rw [waveU, if_pos hi]
  | 1 =>
    rw [waveU]
    rcases hi with rfl | rfl
    · rw [if_neg (by omega)]
    · rw [if_neg (by omega)]
  | m + 2 =>
    rw [waveU, waveStep]
    rcases hi with rfl | rfl
    · rw [if_neg (by omega)]
    · rw [if_neg (by omega)]

/-- The whole temperature table of an FTCS run started from the zero
profile is the zero table, whatever the (stable or unstable) ratio. -/
lemma ftcsTable_zeroInit (L T alpha : ℚ) (Nx Nt : ℕ) :
    ftcsTable L T alpha Nx Nt zeroInit
      = (List.range (Nt + 1)).map fun _ =>
          (List.range Nx).map fun _ => (0 : ℚ) := by
  unfold ftcsTable
  apply List.map_congr_left
  intro n _
  apply List.map_congr_left
  intro i _
  exact heatU_zeroInit _ _ n i

end PDE

namespace Bisection

/-- Taking one element less than an append of one element recovers the
original list. -/
lemma take_of_take_succ {l xs : List ℚ} {x : ℚ}
    (h : l.take (xs.length + 1) = xs ++ [x]) : l.take xs.length = xs := by
  have h1 : (l.take (xs.length + 1)).take xs.length = l.take xs.length := by
    rw [List.take_take]
    congr 1
    omega
  rw [← h1, h, List.take_left]

/-- The bisection trace invariant: when the f_values list is the map of f
over the x_values list, it stays so after any number of iterations, and
the lists only ever grow at the end. -/
lemma bisect_trace_inv (f : ℚ → ℚ) (tol : ℚ) :
    ∀ (fuel : ℕ) (a b : ℚ) (xs fs : List ℚ), fs = xs.map f →
      (bisectLoop f tol fuel a b xs fs).f_values
          = (bisectLoop f tol fuel a b xs fs).x_values.map f ∧
      (bisectLoop f tol fuel a b xs fs).x_values.take xs.length = xs ∧
      (bisectLoop f tol fuel a b xs fs).f_values.take fs.length = fs := by
  intro fuel
  induction fuel with
  | zero =>
    intro a b xs fs hmap
    rw [bisectLoop]
    exact ⟨hmap, by simp, by simp⟩
  | succ fuel ih =>
    intro a b xs fs hmap
    rw [bisectLoop]
    by_cases hstop : |f ((a + b) / 2)| < tol ∨ (b - a) / 2 < tol
    · rw [if_pos hstop]
      refine ⟨?_, List.take_left xs _, List.take_left fs _⟩
      simp [hmap]
    · rw [if_neg hstop]
      have hmap' : fs ++ [f ((a + b) / 2)] = (xs ++ [(a + b) / 2]).map f := by
        simp [hmap]
      have hlx : (xs ++ [(a + b) / 2]).length = xs.length + 1 := by simp
      have hlf : (fs ++ [f ((a + b) / 2)]).length = fs.length + 1 := by simp
      by_cases hsign : f ((a + b) / 2) * f a < 0
      · rw [if_pos hsign]
        obtain ⟨m1, t1, t2⟩ := ih a ((a + b) / 2) (xs ++ [(a + b) / 2])
          (fs ++ [f ((a + b) / 2)]) hmap'
        rw [hlx] at t1
        rw [hlf] at t2
        exact ⟨m1, take_of_take_succ t1, take_of_take_succ t2⟩
      · rw [if_neg hsign]
        obtain ⟨m1, t1, t2⟩ := ih ((a + b) / 2) b (xs ++ [(a + b) / 2])
          (fs ++ [f ((a + b) / 2)]) hmap'
        rw [hlx] at t1
        rw [hlf] at t2
        exact ⟨m1, take_of_take_succ t1, take_of_take_succ t2⟩

end Bisection

namespace Newton

/-- The Newton-Raphson trace invariant: when f_values is the map of f over
the trace of iterates, it stays so through the loop, whatever guard the
script uses, and the lists only ever grow at the end. -/
lemma newton_trace_inv (f fp : ℚ → ℚ) (guard : ℚ → Bool) (tol : ℚ) :
    ∀ (fuel : ℕ) (x : ℚ) (xs fs : List ℚ), fs = xs.map f →
      (newtonLoop f fp guard tol fuel x xs fs).2.2
          = (newtonLoop f fp guard tol fuel x xs fs).2.1.map f ∧
      (newtonLoop f fp guard tol fuel x xs fs).2.1.take xs.length = xs ∧
      (newtonLoop f fp guard tol fuel x xs fs).2.2.take fs.length = fs := by
  intro fuel
  induction fuel with
  | zero =>
    intro x xs fs hmap
    rw [newtonLoop]
    exact ⟨hmap, by simp, by simp⟩
  | succ fuel ih =>
    intro x xs fs hmap
    rw [newtonLoop]
    by_cases hderiv : |fp x| < 1 / 10 ^ 10
    · rw [if_pos hderiv]
      exact ⟨hmap, by simp, by simp⟩
    · rw [if_neg hderiv]
      by_cases hguard : guard (x - f x / fp x) = false
      · rw [if_pos hguard]
        exact ⟨hmap, by simp, by simp⟩
      · rw [if_neg hguard]
        by_cases hconv : |f (x - f x / fp x)| < tol ∨
            |(x - f x / fp x) - x| < tol
        · rw [if_pos hconv]
          refine ⟨?_, List.take_left xs _, List.take_left fs _⟩
          simp [hmap]
        · rw [if_neg hconv]
          have hmap' : fs ++ [f (x - f x / fp x)]
              = (xs ++ [x - f x / fp x]).map f := by
            simp [hmap]
          have hlx : (xs ++ [x - f x / fp x]).length = xs.length + 1 := by simp
          have hlf : (fs ++ [f (x - f x / fp x)]).length = fs.length + 1 := by
            simp
          obtain ⟨m1, t1, t2⟩ := ih (x - f x / fp x) (xs ++ [x - f x / fp x])
            (fs ++ [f (x - f x / fp x)]) hmap'
          rw [hlx] at t1
          rw [hlf] at t2
          exact ⟨m1, Bisection.take_of_take_succ t1,
            Bisection.take_of_take_succ t2⟩

end Newton

/-- Claim C1: each bisection iteration computes the midpoint m = (a+b)/2 of
the current bracket, records m in x_values and f(m) in f_values, terminates
as soon as abs(f(m)) < tol or (b-a)/2 < tol, otherwise replaces the bracket
by the half whose endpoints have opposite f-signs, and when max_iter
iterations run out the loop ends in the notConverged outcome (a returned
value, not an exit), the wrapped run still being a `ran` value whenever the
precondition f(a) * f(b) < 0 held. -/
theorem C1_bisection_step_behavior (f : ℚ → ℚ) (tol a b : ℚ)
    (xs fs : List ℚ) (fuel : ℕ) (htol : 0 < tol) :
    (|f ((a + b) / 2)| < tol ∨ (b - a) / 2 < tol →
      Bisection.bisectLoop f tol (fuel + 1) a b xs fs =
        ⟨.found ((a + b) / 2), xs ++ [(a + b) / 2], fs ++ [f ((a + b) / 2)], a, b⟩) ∧
    (¬(|f ((a + b) / 2)| < tol ∨ (b - a) / 2 < tol) →
      (f ((a + b) / 2) * f a < 0 →
        Bisection.bisectLoop f tol (fuel + 1) a b xs fs =
          Bisection.bisectLoop f tol fuel a ((a + b) / 2)
            (xs ++ [(a + b) / 2]) (fs ++ [f ((a + b) / 2)]) ∧
        f a * f ((a + b) / 2) < 0) ∧
      (¬ f ((a + b) / 2) * f a < 0 →
        Bisection.bisectLoop f tol (fuel + 1) a b xs fs =
          Bisection.bisectLoop f tol fuel ((a + b) / 2) b
            (xs ++ [(a + b) / 2]) (fs ++ [f ((a + b) / 2)]) ∧
        (f a * f b < 0 → f ((a + b) / 2) * f b < 0))) ∧
    Bisection.bisectLoop f tol 0 a b xs fs = ⟨.notConverged, xs, fs, a, b⟩ ∧
    (f a * f b < 0 →
      Bisection.bisection f a b tol fuel =
        .ran (Bisection.bisectLoop f tol fuel a b [] [])) := by
  refine ⟨?_, ?_, ?_, ?_⟩
  · intro hstop
    rw [Bisection.bisectLoop, if_pos hstop]
  · intro hstop
    constructor
    · intro hsign
      refine ⟨?_, ?_⟩
      · rw [Bisection.bisectLoop, if_neg hstop, if_pos hsign]
      · rw [mul_comm]
        exact hsign
    · intro hsign
      refine ⟨?_, ?_⟩
      · rw [Bisection.bisectLoop, if_neg hstop, if_neg hsign]
      · intro hab
        have hmne : f ((a + b) / 2) ≠ 0 := by
          intro h0
          exact hstop (Or.inl (by rw [h0, abs_zero]; exact htol))
        exact Bisection.mul_sign_transfer hab (not_lt.mp hsign) hmne
  · rw [Bisection.bisectLoop]
  · intro hab
    rw [Bisection.bisection, if_neg (not_le.mpr hab)]

/-- Witness for C1 at the script's own f with a = 1, b = 2, tol = 1/16:
the first iteration does not stop, f(3/2) * f(1) > 0, so the loop recurses
on the upper half [3/2, 2] whose endpoints have opposite f-signs. -/
theorem C1_bisection_step_behavior_witness :
    Bisection.bisectLoop Bisection.f02 (1 / 16) 1 1 2 [] [] =
      Bisection.bisectLoop Bisection.f02 (1 / 16) 0 ((1 + 2) / 2) 2
        ([] ++ [(1 + 2) / 2]) ([] ++ [Bisection.f02 ((1 + 2) / 2)]) ∧
    (Bisection.f02 1 * Bisection.f02 2 < 0 →
      Bisection.f02 ((1 + 2) / 2) * Bisection.f02 2 < 0) :=
  ((C1_bisection_step_behavior Bisection.f02 (1 / 16) 1 2 [] [] 0
      (by norm_num)).2.1 (by norm_num [Bisection.f02, abs])).2
    (by norm_num [Bisection.f02])

/-- Claim C4: in the Newton-Raphson loops, an iterate with
abs(f_prime(x_n)) < 1e-10 aborts the loop at once with the
degenerate-derivative outcome, and when the script's domain guard rejects
x_next the loop aborts at once with the left-valid-domain outcome; in both
cases the trace lists accumulated so far are returned unchanged.  The drag
script's guard accepts exactly the strictly positive iterates and the
Van der Waals script's guard exactly the iterates above b. -/
theorem C4_newton_guard_aborts (f fp : ℚ → ℚ) (guard : ℚ → Bool)
    (tol x : ℚ) (xs fs : List ℚ) (fuel : ℕ) :
    (|fp x| < 1 / 10 ^ 10 →
      Newton.newtonLoop f fp guard tol (fuel + 1) x xs fs =
        (.derivSmall, xs, fs)) ∧
    (¬ |fp x| < 1 / 10 ^ 10 → guard (x - f x / fp x) = false →
      Newton.newtonLoop f fp guard tol (fuel + 1) x xs fs =
        (.leftDomain, xs, fs)) ∧
    (∀ c : ℚ, Newton.dragGuard c = false ↔ c ≤ 0) ∧
    (∀ b v : ℚ, Newton.vdwGuard b v = false ↔ v ≤ b) ∧
    (∀ c : ℚ, Newton.noGuard c = true) := by
  refine ⟨?_, ?_, ?_, ?_, ?_⟩
  · intro hsmall
    rw [Newton.newtonLoop, if_pos hsmall]
  · intro hsmall hguard
    rw [Newton.newtonLoop, if_neg hsmall, if_pos hguard]
  · intro c
    simp [Newton.dragGuard, not_lt]
  · intro b v
    simp [Newton.vdwGuard, not_lt]
  · intro c
    rfl

/-- Witness for C4: with derivative constantly 0 the loop aborts with the
degenerate-derivative outcome, and with f = 1, f' = 1 from x = 0 the next
iterate -1 is rejected by the drag guard, aborting with the
left-valid-domain outcome; both leave the trace lists untouched. -/
theorem C4_newton_guard_aborts_witness :
    Newton.newtonLoop (fun _ => 1) (fun _ => 0) Newton.dragGuard 1 (4 + 1)
        1 [1] [1] = (.derivSmall, [1], [1]) ∧
    Newton.newtonLoop (fun _ => 1) (fun _ => 1) Newton.dragGuard 1 (4 + 1)
        0 [0] [1] = (.leftDomain, [0], [1]) :=
  ⟨(C4_newton_guard_aborts (fun _ => 1) (fun _ => 0) Newton.dragGuard 1 1
      [1] [1] 4).1 (by norm_num [abs]),
   (C4_newton_guard_aborts (fun _ => 1) (fun _ => 1) Newton.dragGuard 1 0
      [0] [1] 4).2.1 (by norm_num [abs]) (by norm_num [Newton.dragGuard])⟩

/-- Claim C2: under the precondition f(a) * f(b) < 0 (and a < b, 0 < tol),
every completed bisection iteration halves the bracket exactly, so a run
that exhausts its fuel after k iterations has bracket width (b - a) / 2^k,
and a successful run with k recorded iterates has final bracket width
(b - a) / 2^(k-1); the returned midpoint m is the midpoint of the final
sign-changing bracket and satisfies abs(f(m)) < tol or lies within tol of
every point of that bracket (hence of its sign change). -/
theorem C2_bisection_halving (f : ℚ → ℚ) (tol : ℚ) :
    ∀ (fuel : ℕ) (a b : ℚ) (xs fs : List ℚ) (s : Bisection.LoopState),
      Bisection.bisectLoop f tol fuel a b xs fs = s →
      f a * f b < 0 → 0 < tol → a < b →
      xs.length ≤ s.x_values.length ∧
      (s.outcome = .notConverged →
        (s.b - s.a) * 2 ^ (s.x_values.length - xs.length) = b - a ∧
        f s.a * f s.b < 0 ∧ s.a < s.b) ∧
      (∀ m, s.outcome = .found m →
        xs.length + 1 ≤ s.x_values.length ∧
        (s.b - s.a) * 2 ^ (s.x_values.length - xs.length - 1) = b - a ∧
        m = (s.a + s.b) / 2 ∧ f s.a * f s.b < 0 ∧ s.a < s.b ∧
        (|f m| < tol ∨
          ((s.b - s.a) / 2 < tol ∧
            ∀ y, s.a ≤ y → y ≤ s.b → |m - y| < tol))) := by
  intro fuel
  induction fuel with
  | zero =>
    intro a b xs fs s hs hab htol hlt
    rw [Bisection.bisectLoop] at hs
    subst hs
    refine ⟨le_refl _, ?_, ?_⟩
    · intro _
      exact ⟨by simp, hab, hlt⟩
    · intro m hm
      have hm2 : Bisection.Outcome.notConverged = .found m := hm
      exact absurd hm2 (by simp)
  | succ fuel ih =>
    intro a b xs fs s hs hab htol hlt
    rw [Bisection.bisectLoop] at hs
    by_cases hstop : |f ((a + b) / 2)| < tol ∨ (b - a) / 2 < tol
    · rw [if_pos hstop] at hs
      subst hs
      refine ⟨by simp, ?_, ?_⟩
      · intro hcon
        have hcon2 : Bisection.Outcome.found ((a + b) / 2) = .notConverged := hcon
        exact absurd hcon2 (by simp)
      · intro m hm
        have hm2 : Bisection.Outcome.found ((a + b) / 2) = .found m := hm
        cases hm2
        refine ⟨by simp, by simp, rfl, hab, hlt, ?_⟩
        rcases hstop with h | h
        · exact Or.inl h
        · refine Or.inr ⟨h, ?_⟩
          intro y hy1 hy2
          rw [abs_sub_lt_iff]
          constructor <;> linarith
    · rw [if_neg hstop] at hs
      have hmne : f ((a + b) / 2) ≠ 0 := by
        intro h0
        exact hstop (Or.inl (by rw [h0, abs_zero]; exact htol))
      by_cases hsign : f ((a + b) / 2) * f a < 0
      · rw [if_pos hsign] at hs
        have hab' : f a * f ((a + b) / 2) < 0 := by rw [mul_comm]; exact hsign
        have hlt' : a < (a + b) / 2 := by linarith
        obtain ⟨ihlen, ihnc, ihfound⟩ := ih a ((a + b) / 2) (xs ++ [(a + b) / 2])
          (fs ++ [f ((a + b) / 2)]) s hs hab' htol hlt'
        have hlen1 : (xs ++ [(a + b) / 2]).length = xs.length + 1 := by simp
        rw [hlen1] at ihlen
        refine ⟨by omega, ?_, ?_⟩
        · intro hcon
          obtain ⟨e, sgn, ltab⟩ := ihnc hcon
          rw [hlen1] at e
          refine ⟨?_, sgn, ltab⟩
          have hexp : s.x_values.length - xs.length
              = (s.x_values.length - (xs.length + 1)) + 1 := by omega
          rw [hexp, pow_succ]
          calc (s.b - s.a) * (2 ^ (s.x_values.length - (xs.length + 1)) * 2)
              = ((s.b - s.a) * 2 ^ (s.x_values.length - (xs.length + 1))) * 2 := by
                ring
            _ = ((a + b) / 2 - a) * 2 := by rw [e]
            _ = b - a := by ring
        · intro m hm
          obtain ⟨l1, e, hmm, sgn, ltab, disj⟩ := ihfound m hm
          rw [hlen1] at l1 e
          refine ⟨by omega, ?_, hmm, sgn, ltab, disj⟩
          have hexp : s.x_values.length - xs.length - 1
              = (s.x_values.length - (xs.length + 1) - 1) + 1 := by omega
          rw [hexp, pow_succ]
          calc (s.b - s.a) * (2 ^ (s.x_values.length - (xs.length + 1) - 1) * 2)
              = ((s.b - s.a) * 2 ^ (s.x_values.length - (xs.length + 1) - 1)) * 2 := by
                ring
            _ = ((a + b) / 2 - a) * 2 := by rw [e]
            _ = b - a := by ring
      · rw [if_neg hsign] at hs
        have hab' : f ((a + b) / 2) * f b < 0 :=
          Bisection.mul_sign_transfer hab (not_lt.mp hsign) hmne
        have hlt' : (a + b) / 2 < b := by linarith
        obtain ⟨ihlen, ihnc, ihfound⟩ := ih ((a + b) / 2) b (xs ++ [(a + b) / 2])
          (fs ++ [f ((a + b) / 2)]) s hs hab' htol hlt'
        have hlen1 : (xs ++ [(a + b) / 2]).length = xs.length + 1 := by simp
        rw [hlen1] at ihlen
        refine ⟨by omega, ?_, ?_⟩
        · intro hcon
          obtain ⟨e, sgn, ltab⟩ := ihnc hcon
          rw [hlen1] at e
          refine ⟨?_, sgn, ltab⟩
          have hexp : s.x_values.length - xs.length
              = (s.x_values.length - (xs.length + 1)) + 1 := by omega
          rw [hexp, pow_succ]
          calc (s.b - s.a) * (2 ^ (s.x_values.length - (xs.length + 1)) * 2)
              = ((s.b - s.a) * 2 ^ (s.x_values.length - (xs.length + 1))) * 2 := by
                ring
            _ = (b - (a + b) / 2) * 2 := by rw [e]
            _ = b - a := by ring
        · intro m hm
          obtain ⟨l1, e, hmm, sgn, ltab, disj⟩ := ihfound m hm
          rw [hlen1] at l1 e
          refine ⟨by omega, ?_, hmm, sgn, ltab, disj⟩
          have hexp : s.x_values.length - xs.length - 1
              = (s.x_values.length - (xs.length + 1) - 1) + 1 := by omega
          rw [hexp, pow_succ]
          calc (s.b - s.a) * (2 ^ (s.x_values.length - (xs.length + 1) - 1) * 2)
              = ((s.b - s.a) * 2 ^ (s.x_values.length - (xs.length + 1) - 1)) * 2 := by
                ring
            _ = (b - (a + b) / 2) * 2 := by rw [e]
            _ = b - a := by ring

/-- Witness for C2 at f(x) = x^3 - x - 2, a = 1, b = 2, tol = 1/4: the run
stops at its first recorded iterate, so the final bracket width times
2^(iterations - 1) = 2^0 is the initial width. -/
theorem C2_bisection_halving_witness :
    ((2 : ℚ) - 1) * 2 ^ (([((1 : ℚ) + 2) / 2]).length - ([] : List ℚ).length - 1)
      = 2 - 1 :=
  ((C2_bisection_halving Bisection.f02 (1 / 4) (2 + 1) 1 2 [] []
      ⟨.found ((1 + 2) / 2), [(1 + 2) / 2], [Bisection.f02 ((1 + 2) / 2)], 1, 2⟩
      (by rw [Bisection.bisectLoop, if_pos (by norm_num [Bisection.f02, abs])]; rfl)
      (by norm_num [Bisection.f02]) (by norm_num) (by norm_num)).2.2
      ((1 + 2) / 2) rfl).2.1

/-- Claim C3: with pairwise-distinct nodes, evaluating the Lagrange
interpolant at the node x_data[i] returns exactly y_data[i]: every basis
term for a different node contains the factor (x_i - x_i) = 0, and the
term for node i is y_i times factors each exactly equal to 1. -/
theorem C3_lagrange_reproduces_nodes (x_data y_data : List ℚ) (i : ℕ)
    (hnd : x_data.Nodup) (hi : i < x_data.length) :
    Lagrange.lagrange_interpolation (x_data.getD i 0) x_data y_data
      = y_data.getD i 0 := by
  unfold Lagrange.lagrange_interpolation
  rw [Lagrange.foldl_add_sum, zero_add]
  rw [List.map_congr_left
    (fun k hk => Lagrange.inner_term_eq x_data y_data i k hnd hi
      (List.mem_range.mp hk))]
  exact Lagrange.sum_map_single (y_data.getD i 0) i _
    (List.nodup_range _) (List.mem_range.mpr hi)

/-- Witness for C3: the interpolant through the nodes (0,5), (1,7), (3,11)
evaluated at the middle node returns exactly its y-value 7. -/
theorem C3_lagrange_reproduces_nodes_witness :
    Lagrange.lagrange_interpolation (([0, 1, 3] : List ℚ).getD 1 0)
      [0, 1, 3] [5, 7, 11] = ([5, 7, 11] : List ℚ).getD 1 0 :=
  C3_lagrange_reproduces_nodes [0, 1, 3] [5, 7, 11] 1 (by norm_num)
    (by norm_num)

/-- Claim C5: rk2_step takes its coefficients from a fixed table keyed by
the scheme name whose exactly four entries are heun = (1, 1, 0.5, 0.5),
midpoint = (0.5, 0.5, 0, 1), ralston = (2/3, 2/3, 0.25, 0.75) and
classical = (1, 1, 0, 1), and computes k1 = f(t_n, u_n),
k2 = f(t_n + c2 dt, u_n + a21 k1 dt) and
u_next = u_n + dt (b1 k1 + b2 k2). -/
theorem C5_rk2_coefficient_table :
    RK2.methods ("heun") = some ⟨1, 1, 1 / 2, 1 / 2⟩ ∧
    RK2.methods ("midpoint") = some ⟨1 / 2, 1 / 2, 0, 1⟩ ∧
    RK2.methods ("ralston") = some ⟨2 / 3, 2 / 3, 1 / 4, 3 / 4⟩ ∧
    RK2.methods ("classical") = some ⟨1, 1, 0, 1⟩ ∧
    (∀ m : String, (RK2.methods m).isSome ↔
      m = "heun" ∨ m = "midpoint" ∨ m = "ralston" ∨ m = "classical") ∧
    (∀ t u dt : ℚ, ∀ m : String,
      RK2.rk2_step t u dt m = (RK2.methods m).map fun c =>
        u + dt * (c.b1 * RK2.f08 t u +
          c.b2 * RK2.f08 (t + c.c2 * dt) (u + c.a21 * RK2.f08 t u * dt))) :=
  ⟨rfl, rfl, rfl, rfl, RK2.methods_isSome_iff,
   fun t u dt m => RK2.rk2_step_eq_map t u dt m⟩

/-- Claim C6: the wave marcher bootstraps row 1 from zero initial velocity
by u[1,i] = u[0,i] + 0.5 r^2 (u[0,i+1] - 2 u[0,i] + u[0,i-1]) at every
interior index, where u[0,.] is the step-5 initial profile, and fills every
row n+2 by the three-level update
u[n+2,i] = 2 u[n+1,i] - u[n,i] + r^2 (u[n+1,i+1] - 2 u[n+1,i] + u[n+1,i-1])
at every interior index, with the ratio r = c dt / dx computed from the
inputs. -/
theorem C6_wave_stencil_updates (r L T c : ℚ) (Nx Nt : ℕ) (g : ℕ → ℚ)
    (n i : ℕ) :
    (1 ≤ i → i < Nx - 1 →
      PDE.waveU r Nx g 1 i
        = g i + 1 / 2 * r ^ 2 * (g (i + 1) - 2 * g i + g (i - 1))) ∧
    (1 ≤ i → i < Nx - 1 →
      PDE.waveU r Nx g (n + 2) i
        = 2 * PDE.waveU r Nx g (n + 1) i - PDE.waveU r Nx g n i +
          r ^ 2 * (PDE.waveU r Nx g (n + 1) (i + 1)
            - 2 * PDE.waveU r Nx g (n + 1) i
            + PDE.waveU r Nx g (n + 1) (i - 1))) ∧
    PDE.wave_r L T c Nx Nt = c * (T / (Nt : ℚ)) / (L / ((Nx : ℚ) - 1)) ∧
    PDE.waveField L T c Nx Nt g n i
      = PDE.waveU (PDE.wave_r L T c Nx Nt) Nx g n i := by
  refine ⟨?_, ?_, rfl, rfl⟩
  · intro h1 h2
    rw [PDE.waveU, if_pos ⟨h1, h2⟩]
  · intro h1 h2
    rw [PDE.waveU, PDE.waveStep, if_pos ⟨h1, h2⟩]

/-- Witness for C6 at r = 1, Nx = 4, the profile i^2, interior index 2:
the bootstrap row and the first three-level row both satisfy their update
equations. -/
theorem C6_wave_stencil_updates_witness :
    PDE.waveU 1 4 PDE.sampleInit 1 2
      = PDE.sampleInit 2 + 1 / 2 * 1 ^ 2 *
          (PDE.sampleInit 3 - 2 * PDE.sampleInit 2 + PDE.sampleInit 1) ∧
    PDE.waveU 1 4 PDE.sampleInit (0 + 2) 2
      = 2 * PDE.waveU 1 4 PDE.sampleInit (0 + 1) 2
        - PDE.waveU 1 4 PDE.sampleInit 0 2 +
        1 ^ 2 * (PDE.waveU 1 4 PDE.sampleInit (0 + 1) 3
          - 2 * PDE.waveU 1 4 PDE.sampleInit (0 + 1) 2
          + PDE.waveU 1 4 PDE.sampleInit (0 + 1) 1) :=
  ⟨(C6_wave_stencil_updates 1 1 1 1 4 1 PDE.sampleInit 0 2).1
      (by norm_num) (by norm_num),
   (C6_wave_stencil_updates 1 1 1 1 4 1 PDE.sampleInit 0 2).2.1
      (by norm_num) (by norm_num)⟩

/-- Claim C9: in all three PDE marchers the boundary columns hold 0 at
every time row, the interior of row 0 is the initial profile fixed before
stepping, and each later row is computed by one step function applied to
the immediately preceding row (and the one before it in the wave case),
which writes only interior cells. -/
theorem C9_pde_boundary_invariants (r : ℚ) (Nx : ℕ) (g : ℕ → ℚ)
    (sol : (ℕ → ℚ) → ℕ → ℚ) (n i : ℕ) :
    PDE.heatU r Nx g n 0 = 0 ∧ PDE.heatU r Nx g n (Nx - 1) = 0 ∧
    PDE.cnU r Nx g sol n 0 = 0 ∧ PDE.cnU r Nx g sol n (Nx - 1) = 0 ∧
    PDE.waveU r Nx g n 0 = 0 ∧ PDE.waveU r Nx g n (Nx - 1) = 0 ∧
    (1 ≤ i → i < Nx - 1 →
      PDE.heatU r Nx g 0 i = g i ∧ PDE.cnU r Nx g sol 0 i = g i ∧
      PDE.waveU r Nx g 0 i = g i) ∧
    PDE.heatU r Nx g (n + 1) i = PDE.ftcsStep r Nx (PDE.heatU r Nx g n) i ∧
    PDE.cnU r Nx g sol (n + 1) i
      = PDE.cnStep r Nx sol (PDE.cnU r Nx g sol n) i ∧
    PDE.waveU r Nx g (n + 2) i
      = PDE.waveStep r Nx (PDE.waveU r Nx g (n + 1)) (PDE.waveU r Nx g n) i := by
  refine ⟨PDE.heatU_boundary r Nx g n 0 (Or.inl rfl),
    PDE.heatU_boundary r Nx g n (Nx - 1) (Or.inr rfl),
    PDE.cnU_boundary r Nx g sol n 0 (Or.inl rfl),
    PDE.cnU_boundary r Nx g sol n (Nx - 1) (Or.inr rfl),
    PDE.waveU_boundary r Nx g n 0 (Or.inl rfl),
    PDE.waveU_boundary r Nx g n (Nx - 1) (Or.inr rfl),
    ?_, ?_, ?_, ?_⟩
  · intro h1 h2
    have hne : ¬(i = 0 ∨ i = Nx - 1) := by omega
    refine ⟨?_, ?_, ?_⟩
    · rw [PDE.heatU, if_neg hne]
    · rw [PDE.cnU, if_neg hne]
    · rw [PDE.waveU, if_neg hne]
  · rw [PDE.heatU]
  · rw [PDE.cnU]
  · rw [PDE.waveU]

/-- Witness for C9: at Nx = 4 the interior cell 2 of row 0 equals the
initial profile there, in all three marchers. -/
theorem C9_pde_boundary_invariants_witness :
    PDE.heatU 1 4 PDE.sampleInit 0 2 = PDE.sampleInit 2 ∧
    PDE.cnU 1 4 PDE.sampleInit PDE.zeroSol 0 2 = PDE.sampleInit 2 ∧
    PDE.waveU 1 4 PDE.sampleInit 0 2 = PDE.sampleInit 2 :=
  (C9_pde_boundary_invariants 1 4 PDE.sampleInit PDE.zeroSol 0 2).2.2.2.2.2.2.1
    (by norm_num) (by norm_num)

/-- Claim C7 fails on the code: the counterexample.  With a = 1, b = 3/2
the bracketing precondition of script 02 fails (f is negative at both) and
the script calls exit(), terminating the host process; and rk2_step with
the unknown scheme name rk3 raises an uncaught KeyError (the none value of
the dictionary lookup), not a returned value. -/
theorem C7_counterexample_process_exit :
    Bisection.bisection Bisection.f02 1 (3 / 2) (1 / 1000000) 100
      = .exited ∧
    RK2.rk2_step 0 1 (1 / 100) ("rk3") = none := by
  constructor
  · rw [Bisection.bisection,
      if_pos (show Bisection.f02 1 * Bisection.f02 (3 / 2) ≥ 0 by
        norm_num [Bisection.f02])]
  · rfl

/-- Claim C7 amended: the loops do report degenerate outcomes
(non-convergence, small derivative, left domain) as returned values, but
two failures do terminate the host process: the bisection script calls
exit() exactly when f(a) * f(b) is not negative, and rk2_step raises a
KeyError exactly on the scheme names outside its table. -/
theorem C7_failure_reporting_amended (f fp : ℚ → ℚ) (guard : ℚ → Bool)
    (a b tol t u dt x : ℚ) (k : ℕ) (m : String) (xs fs : List ℚ) :
    (Bisection.bisection f a b tol k = .exited ↔ 0 ≤ f a * f b) ∧
    (RK2.rk2_step t u dt m = none ↔
      ¬(m = "heun" ∨ m = "midpoint" ∨ m = "ralston" ∨ m = "classical")) ∧
    Newton.newtonLoop f fp guard tol 0 x xs fs = (.notConverged, xs, fs) ∧
    Bisection.bisectLoop f tol 0 a b xs fs = ⟨.notConverged, xs, fs, a, b⟩ := by
  refine ⟨?_, ?_, ?_, ?_⟩
  · rw [Bisection.bisection]
    by_cases h : f a * f b ≥ 0
    · rw [if_pos h]
      exact iff_of_true rfl h
    · rw [if_neg h]
      exact iff_of_false (by simp) h
  · rw [RK2.rk2_step_eq_map, Option.map_eq_none',
      ← Option.not_isSome_iff_eq_none]
    exact not_congr (RK2.methods_isSome_iff m)
  · rw [Newton.newtonLoop]
  · rw [Bisection.bisectLoop]

/-- Claim C8 fails on the code: the counterexample.  Two FTCS runs from
the zero profile, one with ratio 2/5 (stable) and one with ratio 3/5
(violating the bound 1/2), hand exactly the same temperature table to the
caller; the violation shows up only in the printed output, so no field of
the returned result carries the stability information. -/
theorem C8_counterexample_stability_print_only :
    PDE.ftcsTable 1 1 (1 / 5) 3 2 PDE.zeroInit
      = PDE.ftcsTable 1 1 (3 / 10) 3 2 PDE.zeroInit ∧
    ¬ PDE.ftcs_r 1 1 (1 / 5) 3 2 > 1 / 2 ∧
    PDE.ftcs_r 1 1 (3 / 10) 3 2 > 1 / 2 ∧
    PDE.ftcsLog 1 1 (1 / 5) 3 2 = [] ∧
    PDE.ftcsLog 1 1 (3 / 10) 3 2
      = [PDE.PrintEvent.heatWarn (PDE.ftcs_r 1 1 (3 / 10) 3 2)] := by
  have h1 : ¬ PDE.ftcs_r 1 1 (1 / 5) 3 2 > 1 / 2 := by norm_num [PDE.ftcs_r]
  have h2 : PDE.ftcs_r 1 1 (3 / 10) 3 2 > 1 / 2 := by norm_num [PDE.ftcs_r]
  refine ⟨?_, h1, h2, ?_, ?_⟩
  · exact (PDE.ftcsTable_zeroInit 1 1 (1 / 5) 3 2).trans
      (PDE.ftcsTable_zeroInit 1 1 (3 / 10) 3 2).symm
  · rw [PDE.ftcsLog, if_neg h1]
  · rw [PDE.ftcsLog, if_pos h2]

/-- Claim C8 amended: both explicit steppers compute the stability ratio
from their inputs (r = alpha dt / dx^2 for FTCS, r = c dt / dx for the
wave scheme), and on violation of the bound they print a warning and march
anyway: the warning exists only in the printed output, and the field the
caller receives is the plain march with the computed ratio, with no
stability flag attached. -/
theorem C8_stability_print_only_amended (L T alpha c : ℚ) (Nx Nt : ℕ)
    (g : ℕ → ℚ) (n i : ℕ) :
    PDE.ftcs_r L T alpha Nx Nt
      = alpha * (T / (Nt : ℚ)) / (L / ((Nx : ℚ) - 1)) ^ 2 ∧
    PDE.wave_r L T c Nx Nt = c * (T / (Nt : ℚ)) / (L / ((Nx : ℚ) - 1)) ∧
    (PDE.ftcsLog L T alpha Nx Nt
        = [PDE.PrintEvent.heatWarn (PDE.ftcs_r L T alpha Nx Nt)] ↔
      PDE.ftcs_r L T alpha Nx Nt > 1 / 2) ∧
    (PDE.ftcsLog L T alpha Nx Nt = [] ↔
      ¬ PDE.ftcs_r L T alpha Nx Nt > 1 / 2) ∧
    (PDE.waveLog L T c Nx Nt
        = [PDE.PrintEvent.waveWarn (PDE.wave_r L T c Nx Nt)] ↔
      PDE.wave_r L T c Nx Nt > 1) ∧
    (PDE.waveLog L T c Nx Nt
        = [PDE.PrintEvent.waveCourant (PDE.wave_r L T c Nx Nt)] ↔
      ¬ PDE.wave_r L T c Nx Nt > 1) ∧
    PDE.ftcsField L T alpha Nx Nt g n i
      = PDE.heatU (PDE.ftcs_r L T alpha Nx Nt) Nx g n i ∧
    PDE.waveField L T c Nx Nt g n i
      = PDE.waveU (PDE.wave_r L T c Nx Nt) Nx g n i := by
  refine ⟨rfl, rfl, ?_, ?_, ?_, ?_, rfl, rfl⟩
  · rw [PDE.ftcsLog]
    by_cases h : PDE.ftcs_r L T alpha Nx Nt > 1 / 2
    · rw [if_pos h]
      exact iff_of_true rfl h
    · rw [if_neg h]
      exact iff_of_false (by simp) h
  · rw [PDE.ftcsLog]
    by_cases h : PDE.ftcs_r L T alpha Nx Nt > 1 / 2
    · rw [if_pos h]
      exact iff_of_false (by simp) (fun hc => hc h)
    · rw [if_neg h]
      exact iff_of_true rfl h
  · rw [PDE.waveLog]
    by_cases h : PDE.wave_r L T c Nx Nt > 1
    · rw [if_pos h]
      exact iff_of_true rfl h
    · rw [if_neg h]
      exact iff_of_false (by simp) h
  · rw [PDE.waveLog]
    by_cases h : PDE.wave_r L T c Nx Nt > 1
    · rw [if_pos h]
      exact iff_of_false (by simp) (fun hc => hc h)
    · rw [if_neg h]
      exact iff_of_true rfl h

/-- Claim C10: in the bisection and Newton-Raphson scripts the two trace
lists evolve in lockstep: whenever f_values is f mapped over x_values on
entry to the loop it is so on exit (hence at the end of every iteration),
so they always have equal length and the k-th f value is f of the k-th
iterate; the input lists survive as the initial segment of the output
lists, so entries are only appended, never removed or overwritten; and the
whole Newton-Raphson run, started from [x0] and [f(x0)], ends with
f_values = map f x_values. -/
theorem C10_trace_invariants (f fp : ℚ → ℚ) (guard : ℚ → Bool)
    (tol : ℚ) (fuel : ℕ) (a b x x0 : ℚ) (xs fs : List ℚ) :
    (fs = xs.map f →
      (Bisection.bisectLoop f tol fuel a b xs fs).f_values
          = (Bisection.bisectLoop f tol fuel a b xs fs).x_values.map f ∧
      (Bisection.bisectLoop f tol fuel a b xs fs).x_values.length
          = (Bisection.bisectLoop f tol fuel a b xs fs).f_values.length ∧
      (Bisection.bisectLoop f tol fuel a b xs fs).x_values.take xs.length
          = xs ∧
      (Bisection.bisectLoop f tol fuel a b xs fs).f_values.take fs.length
          = fs) ∧
    (fs = xs.map f →
      (Newton.newtonLoop f fp guard tol fuel x xs fs).2.2
          = (Newton.newtonLoop f fp guard tol fuel x xs fs).2.1.map f ∧
      (Newton.newtonLoop f fp guard tol fuel x xs fs).2.1.length
          = (Newton.newtonLoop f fp guard tol fuel x xs fs).2.2.length ∧
      (Newton.newtonLoop f fp guard tol fuel x xs fs).2.1.take xs.length
          = xs ∧
      (Newton.newtonLoop f fp guard tol fuel x xs fs).2.2.take fs.length
          = fs) ∧
    (Newton.newton f fp guard tol fuel x0).2.2
      = (Newton.newton f fp guard tol fuel x0).2.1.map f := by
  refine ⟨?_, ?_, ?_⟩
  · intro hmap
    obtain ⟨m1, t1, t2⟩ := Bisection.bisect_trace_inv f tol fuel a b xs fs hmap
    exact ⟨m1, by rw [m1, List.length_map], t1, t2⟩
  · intro hmap
    obtain ⟨m1, t1, t2⟩ :=
      Newton.newton_trace_inv f fp guard tol fuel x xs fs hmap
    exact ⟨m1, by rw [m1, List.length_map], t1, t2⟩
  · exact (Newton.newton_trace_inv f fp guard tol fuel x0 [x0] [f x0] rfl).1

/-- Witness for C10: a concrete bisection loop and a concrete
Newton-Raphson loop, both started with empty traces, end with f_values
equal to f mapped over x_values. -/
theorem C10_trace_invariants_witness :
    (Bisection.bisectLoop Bisection.f02 1 2 1 2 [] []).f_values
      = (Bisection.bisectLoop Bisection.f02 1 2 1 2 [] []).x_values.map
          Bisection.f02 ∧
    (Newton.newtonLoop Bisection.f02 Bisection.f02 Newton.noGuard 1 2 (3 / 2)
        [] []).2.2
      = (Newton.newtonLoop Bisection.f02 Bisection.f02 Newton.noGuard 1 2
          (3 / 2) [] []).2.1.map Bisection.f02 :=
  ⟨((C10_trace_invariants Bisection.f02 Bisection.f02 Newton.noGuard 1 2 1 2
      (3 / 2) (3 / 2) [] []).1 rfl).1,
   ((C10_trace_invariants Bisection.f02 Bisection.f02 Newton.noGuard 1 2 1 2
      (3 / 2) (3 / 2) [] []).2.1 rfl).1⟩
